import Mathlib

/-!
Verification of the Alignment Stack engine (`align_stack.cpp`).

The embedding models the `AlignStack` class state and its operations
`Start`, `Add`, `NewLines`, `Flush`, `ReAddSkipped`, `End`.  The mutual
recursion between `Add`, `ReAddSkipped`, `NewLines` and `Flush` is made
total with an explicit fuel argument; every internal call strictly
decreases the fuel, and all theorems take a successful (`= some t`) run
as hypothesis.

A ghost event trace records each push onto the two entry collections,
each column-applier invocation (`indent_to_column` in the source), and
each entry discarded by `End`; the trace is write-only instrumentation,
never read by the engine, so it does not alter control flow.
-/

namespace AlignStackSpec

/-- A token (`chunk_t` is external to the module; the engine reads
`column`, `len` and, for diagnostics only, `orig_line`). -/
structure Token where
  column : Int
  len : Int
  orig_line : Int
deriving DecidableEq, Repr

/-- An entry of a chunk stack: a token reference plus its sequence number
(`ChunkStack::Entry` with fields `m_pc`, `m_seqnum`). -/
structure Entry where
  m_pc : Token
  m_seqnum : Int
deriving DecidableEq, Repr

/-- Ghost events: pushes onto the aligned / skipped stacks, column-applier
invocations and the discards performed by `End`. -/
inductive Ev where
  | pushA : Token → Int → Ev
  | pushS : Token → Int → Ev
  | apply : Token → Int → Ev
  | discardA : Token → Int → Ev
  | discardS : Token → Int → Ev
deriving DecidableEq, Repr

/-- The `AlignStack` state: the two entry collections, the shared scratch
member that `ReAddSkipped` snapshots into (`m_scratch` is a class member
in the source, not a local, so nested `ReAddSkipped` calls overwrite it),
the five integer registers, and the ghost trace. -/
structure AlignStack where
  m_aligned : List Entry
  m_skipped : List Entry
  m_scratch : List Entry
  m_span : Int
  m_thresh : Int
  m_max_col : Int
  m_nl_seqnum : Int
  m_seqnum : Int
  trace : List Ev
deriving DecidableEq, Repr

/-- A freshly constructed stack: everything empty / zero. -/
def initStack : AlignStack := ⟨[], [], [], 0, 0, 0, 0, 0, []⟩

/-- `AlignStack::Start`: reset both collections, store span/threshold,
zero the three counters. -/
def startF (span thresh : Int) (s : AlignStack) : AlignStack :=
  { s with m_aligned := [], m_skipped := [], m_span := span,
           m_thresh := thresh, m_max_col := 0, m_nl_seqnum := 0,
           m_seqnum := 0 }

/-- Seqnum resolution at the top of `Add`: the value 0 means "unset, use
the running counter". -/
def resolveSeq (s : AlignStack) (seqnum : Int) : Int :=
  if seqnum = 0 then s.m_seqnum else seqnum

/-- The acceptance test of `AlignStack::Add` (source lines 73-75). -/
def accept (s : AlignStack) (pc : Token) : Prop :=
  s.m_max_col = 0 ∨ s.m_thresh = 0 ∨
    (pc.column ≤ s.m_max_col + s.m_thresh ∧ pc.column ≥ s.m_max_col - s.m_thresh)

instance (s : AlignStack) (pc : Token) : Decidable (accept s pc) := by
  unfold accept; exact inferInstance

/-- The state after the acceptance bookkeeping of `Add` (lines 77-83):
bump `m_nl_seqnum`, push onto `m_aligned` (before any `m_max_col`
growth). -/
def acceptState (s : AlignStack) (pc : Token) (seqnum : Int) : AlignStack :=
  let q := resolveSeq s seqnum
  { s with m_nl_seqnum := if q > s.m_nl_seqnum then q else s.m_nl_seqnum,
           m_aligned := s.m_aligned ++ [⟨pc, q⟩],
           trace := s.trace ++ [Ev.pushA pc q] }

/-- The state after the rejection branch of `Add` (line 113): push onto
`m_skipped`, nothing else changes. -/
def rejectState (s : AlignStack) (pc : Token) (seqnum : Int) : AlignStack :=
  let q := resolveSeq s seqnum
  { s with m_skipped := s.m_skipped ++ [⟨pc, q⟩],
           trace := s.trace ++ [Ev.pushS pc q] }

/-- The snapshot step of `ReAddSkipped` (lines 40-41): copy the skipped
stack into the shared scratch member, then clear the skipped stack. -/
def snapScratch (s : AlignStack) : AlignStack :=
  { s with m_scratch := s.m_skipped, m_skipped := [] }

/-- The commit loop of `Flush` (lines 152-158): one applier invocation
per aligned entry, in insertion order, target `m_max_col - len`. -/
def applyAll (s : AlignStack) : AlignStack :=
  { s with trace := s.trace ++
      s.m_aligned.map (fun ce => Ev.apply ce.m_pc (s.m_max_col - ce.m_pc.len)) }

/-- `last_seqnum` as computed by the loop in `Flush`: the seqnum of the
final aligned entry, or 0 when the list is empty (`ce == NULL`). -/
def lastSeq (s : AlignStack) : Int :=
  match s.m_aligned.getLast? with
  | some ce => ce.m_seqnum
  | none => 0

mutual

/-- `AlignStack::Add` (fueled). -/
def addF : Nat → Token → Int → AlignStack → Option AlignStack
  | 0, _, _, _ => none
  | f+1, pc, seqnum, s =>
    if accept s pc then
      let s2 := acceptState s pc seqnum
      let endcol := pc.column + pc.len
      if endcol > s2.m_max_col then
        let s3 := { s2 with m_max_col := endcol }
        if s3.m_skipped.isEmpty then some s3 else reAddSkippedF f s3
      else
        some s2
    else
      some (rejectState s pc seqnum)

/-- `AlignStack::ReAddSkipped` (fueled): snapshot the skipped stack into
the shared `m_scratch` member, clear the skipped stack, run the re-add
loop from index 0, then `NewLines 0`. -/
def reAddSkippedF : Nat → AlignStack → Option AlignStack
  | 0, _ => none
  | f+1, s =>
    if s.m_skipped.isEmpty then some s
    else (replayF f 0 (snapScratch s)).bind (newLinesF f 0)

/-- The re-add loop of `ReAddSkipped` (lines 46-51):
`for (idx = 0; idx < m_scratch.Len(); idx++) Add(m_scratch.Get(idx))`.
Both the bound and the element are read from the current state's scratch
member each iteration, because a nested `ReAddSkipped` reached through
`Add` overwrites `m_scratch`: the loop then continues against the new,
shorter scratch and the remaining entries of the old snapshot are never
re-added. -/
def replayF : Nat → Nat → AlignStack → Option AlignStack
  | 0, _, _ => none
  | f+1, idx, s =>
    match s.m_scratch[idx]? with
    | none => some s
    | some ce => (addF f ce.m_pc ce.m_seqnum s).bind (replayF f (idx+1))

/-- `AlignStack::NewLines` (fueled). -/
def newLinesF : Nat → Int → AlignStack → Option AlignStack
  | 0, _, _ => none
  | f+1, cnt, s =>
    if s.m_aligned.isEmpty then some s
    else
      let s1 := { s with m_seqnum := s.m_seqnum + cnt }
      if s1.m_seqnum > s1.m_nl_seqnum + s1.m_span then flushF f s1 else some s1

/-- `AlignStack::Flush` (fueled). -/
def flushF : Nat → AlignStack → Option AlignStack
  | 0, _ => none
  | f+1, s =>
    let s1 := applyAll s
    let last := lastSeq s
    let s2 := { s1 with m_aligned := [], m_max_col := 0 }
    if s2.m_skipped.isEmpty then
      some { s2 with m_nl_seqnum := s2.m_seqnum }
    else
      reAddSkippedF f
        { s2 with m_skipped :=
            (s2.m_skipped.filter (fun ce => !decide (ce.m_seqnum < last))) }

end

/-- The unconditional clears at the end of `End` (lines 200-201).  The
ghost trace records every entry discarded by the clears. -/
def clearBoth (t : AlignStack) : AlignStack :=
  { t with
    m_aligned := ([] : List Entry),
    m_skipped := ([] : List Entry),
    trace :=
      (t.trace
        ++ t.m_aligned.map (fun ce => Ev.discardA ce.m_pc ce.m_seqnum)
        ++ t.m_skipped.map (fun ce => Ev.discardS ce.m_pc ce.m_seqnum)) }

/-- `AlignStack::End`: flush when the aligned stack is nonempty, then
unconditionally clear both collections. -/
def endF (f : Nat) (s : AlignStack) : Option AlignStack :=
  (if s.m_aligned.isEmpty then some s else flushF f s).map clearBoth

/-- The state after the growth assignment `m_max_col = endcol` (line 92). -/
def growState (s : AlignStack) (pc : Token) (seqnum : Int) : AlignStack :=
  { acceptState s pc seqnum with m_max_col := pc.column + pc.len }

/-- The state after the commit loop and the resets of `Flush`
(lines 152-165): applier trace appended, aligned cleared, `m_max_col`
zeroed. -/
def commitState (s : AlignStack) : AlignStack :=
  { applyAll s with m_aligned := [], m_max_col := 0 }

/-- The skipped entries surviving the `Zap`/`Collapse` of `Flush`
(lines 175-182): those with `m_seqnum ≥ last_seqnum`. -/
def flushKeep (s : AlignStack) : List Entry :=
  s.m_skipped.filter (fun ce => !decide (ce.m_seqnum < lastSeq s))

/-- One external call of a session. -/
inductive Op where
  | start : Int → Int → Op
  | add : Token → Int → Op
  | newLines : Int → Op
  | flush : Op
  | finish : Op
  | reAddSkipped : Op
deriving DecidableEq, Repr

/-- Execute one external call. -/
def execOpF (f : Nat) : Op → AlignStack → Option AlignStack
  | .start sp th, s => some (startF sp th s)
  | .add pc q, s => addF f pc q s
  | .newLines c, s => newLinesF f c s
  | .flush, s => flushF f s
  | .finish, s => endF f s
  | .reAddSkipped, s => reAddSkippedF f s

/-- Execute a sequence of external calls. -/
def runF (f : Nat) : List Op → AlignStack → Option AlignStack
  | [], s => some s
  | op :: ops, s =>
    match execOpF f op s with
    | none => none
    | some t => runF f ops t

/-! ### Step equations for the fueled operations -/

theorem addF_zero (pc : Token) (q : Int) (s : AlignStack) :
    addF 0 pc q s = none := rfl

theorem addF_succ (f : Nat) (pc : Token) (q : Int) (s : AlignStack) :
    addF (f+1) pc q s =
      if accept s pc then
        if pc.column + pc.len > s.m_max_col then
          (if s.m_skipped.isEmpty then some (growState s pc q)
           else reAddSkippedF f (growState s pc q))
        else some (acceptState s pc q)
      else some (rejectState s pc q) := rfl

theorem reAddSkippedF_zero (s : AlignStack) : reAddSkippedF 0 s = none := rfl

theorem reAddSkippedF_succ (f : Nat) (s : AlignStack) :
    reAddSkippedF (f+1) s =
      if s.m_skipped.isEmpty then some s
      else (replayF f 0 (snapScratch s)).bind (newLinesF f 0) := rfl

theorem replayF_zero (idx : Nat) (s : AlignStack) :
    replayF 0 idx s = none := rfl

theorem replayF_succ (f idx : Nat) (s : AlignStack) :
    replayF (f+1) idx s =
      match s.m_scratch[idx]? with
      | none => some s
      | some ce => (addF f ce.m_pc ce.m_seqnum s).bind (replayF f (idx+1)) :=
  rfl

theorem replayF_stop (f idx : Nat) (s : AlignStack)
    (h : s.m_scratch[idx]? = none) :
    replayF (f+1) idx s = some s := by
  rw [replayF_succ, h]

theorem replayF_step (f idx : Nat) (s : AlignStack) (ce : Entry)
    (h : s.m_scratch[idx]? = some ce) :
    replayF (f+1) idx s =
      (addF f ce.m_pc ce.m_seqnum s).bind (replayF f (idx+1)) := by
  rw [replayF_succ, h]

theorem newLinesF_zero (c : Int) (s : AlignStack) : newLinesF 0 c s = none := rfl

theorem newLinesF_succ (f : Nat) (c : Int) (s : AlignStack) :
    newLinesF (f+1) c s =
      if s.m_aligned.isEmpty then some s
      else if s.m_seqnum + c > s.m_nl_seqnum + s.m_span then
        flushF f { s with m_seqnum := s.m_seqnum + c }
      else some { s with m_seqnum := s.m_seqnum + c } := rfl

theorem flushF_zero (s : AlignStack) : flushF 0 s = none := rfl

theorem flushF_succ (f : Nat) (s : AlignStack) :
    flushF (f+1) s =
      if s.m_skipped.isEmpty then
        some { commitState s with m_nl_seqnum := s.m_seqnum }
      else reAddSkippedF f { commitState s with m_skipped := flushKeep s } := rfl

/-! ### Trace monotonicity: every operation only appends to the ghost trace -/

theorem traceMono (f : Nat) :
    (∀ pc q s t, addF f pc q s = some t → ∃ l, t.trace = s.trace ++ l) ∧
    (∀ s t, reAddSkippedF f s = some t → ∃ l, t.trace = s.trace ++ l) ∧
    (∀ idx s t, replayF f idx s = some t → ∃ l, t.trace = s.trace ++ l) ∧
    (∀ c s t, newLinesF f c s = some t → ∃ l, t.trace = s.trace ++ l) ∧
    (∀ s t, flushF f s = some t → ∃ l, t.trace = s.trace ++ l) := by
  induction f with
  | zero =>
    refine ⟨?_, ?_, ?_, ?_, ?_⟩ <;> intros <;> simp_all [addF_zero,
      reAddSkippedF_zero, replayF_zero, newLinesF_zero, flushF_zero]
  | succ f ih =>
    obtain ⟨ihA, ihR, ihP, ihN, ihF⟩ := ih
    refine ⟨?_, ?_, ?_, ?_, ?_⟩
    · -- addF
      intro pc q s t h
      rw [addF_succ] at h
      split_ifs at h with hacc hgrow hsk
      · obtain rfl : growState s pc q = t := by injection h
        exact ⟨[Ev.pushA pc (resolveSeq s q)], by simp [growState, acceptState]⟩
      · obtain ⟨l, hl⟩ := ihR _ _ h
        refine ⟨[Ev.pushA pc (resolveSeq s q)] ++ l, ?_⟩
        rw [hl]; simp [growState, acceptState]
      · obtain rfl : acceptState s pc q = t := by injection h
        exact ⟨[Ev.pushA pc (resolveSeq s q)], by simp [acceptState]⟩
      · obtain rfl : rejectState s pc q = t := by injection h
        exact ⟨[Ev.pushS pc (resolveSeq s q)], by simp [rejectState]⟩
    · -- reAddSkippedF
      intro s t h
      rw [reAddSkippedF_succ] at h
      split_ifs at h with hsk
      · obtain rfl : s = t := by injection h
        exact ⟨[], by simp⟩
      · obtain ⟨w, hw, hnl⟩ := Option.bind_eq_some.mp h
        obtain ⟨l1, hl1⟩ := ihP _ _ _ hw
        obtain ⟨l2, hl2⟩ := ihN _ _ _ hnl
        refine ⟨l1 ++ l2, ?_⟩
        rw [hl2, hl1]; simp [snapScratch]
    · -- replayF
      intro idx s t h
      rcases hscr : s.m_scratch[idx]? with _ | ce
      · rw [replayF_stop f idx s hscr] at h
        obtain rfl : s = t := by injection h
        exact ⟨[], by simp⟩
      · rw [replayF_step f idx s ce hscr] at h
        obtain ⟨w, hw, hrest⟩ := Option.bind_eq_some.mp h
        obtain ⟨l1, hl1⟩ := ihA _ _ _ _ hw
        obtain ⟨l2, hl2⟩ := ihP _ _ _ hrest
        exact ⟨l1 ++ l2, by rw [hl2, hl1, List.append_assoc]⟩
    · -- newLinesF
      intro c s t h
      rw [newLinesF_succ] at h
      split_ifs at h with hemp hspan
      · obtain rfl : s = t := by injection h
        exact ⟨[], by simp⟩
      · obtain ⟨l, hl⟩ := ihF _ _ h
        exact ⟨l, by rw [hl]⟩
      · obtain rfl : { s with m_seqnum := s.m_seqnum + c } = t := by injection h
        exact ⟨[], by simp⟩
    · -- flushF
      intro s t h
      rw [flushF_succ] at h
      split_ifs at h with hsk
      · obtain rfl : { commitState s with m_nl_seqnum := s.m_seqnum } = t := by
          injection h
        exact ⟨s.m_aligned.map
          (fun ce => Ev.apply ce.m_pc (s.m_max_col - ce.m_pc.len)),
          by simp [commitState, applyAll]⟩
      · obtain ⟨l, hl⟩ := ihR _ _ h
        refine ⟨s.m_aligned.map
          (fun ce => Ev.apply ce.m_pc (s.m_max_col - ce.m_pc.len)) ++ l, ?_⟩
        rw [hl]; simp [commitState, applyAll]

/-- Shape of a single `Add` call: on acceptance the first new trace event
is the push of the argument token onto `m_aligned`; on rejection the call
is exactly the push onto `m_skipped`. -/
theorem addF_shape (f : Nat) (pc : Token) (q : Int) (s t : AlignStack)
    (h : addF (f+1) pc q s = some t) :
    (accept s pc → ∃ l, t.trace = s.trace ++ Ev.pushA pc (resolveSeq s q) :: l) ∧
    (¬ accept s pc → t = rejectState s pc q) := by
  rw [addF_succ] at h
  constructor
  · intro hacc
    rw [if_pos hacc] at h
    split_ifs at h with hgrow hsk
    · obtain rfl : growState s pc q = t := by injection h
      exact ⟨[], by simp [growState, acceptState]⟩
    · obtain ⟨l, hl⟩ := (traceMono f).2.1 _ _ h
      refine ⟨l, ?_⟩
      rw [hl]; simp [growState, acceptState]
    · obtain rfl : acceptState s pc q = t := by injection h
      exact ⟨[], by simp [acceptState]⟩
  · intro hacc
    rw [if_neg hacc] at h
    exact (Option.some_inj.mp h).symm

/-- Shape of a single `Flush` call: the first new trace events are the
applier invocations for the aligned entries, in insertion order, with
target `m_max_col - len`. -/
theorem flushF_shape (f : Nat) (s t : AlignStack)
    (h : flushF (f+1) s = some t) :
    ∃ l, t.trace = s.trace ++
      s.m_aligned.map (fun ce => Ev.apply ce.m_pc (s.m_max_col - ce.m_pc.len)) ++ l := by
  rw [flushF_succ] at h
  split_ifs at h with hsk
  · obtain rfl : { commitState s with m_nl_seqnum := s.m_seqnum } = t := by
      injection h
    exact ⟨[], by simp [commitState, applyAll]⟩
  · obtain ⟨l, hl⟩ := (traceMono f).2.1 _ _ h
    refine ⟨l, ?_⟩
    rw [hl]; simp [commitState, applyAll]

/-! ### The running seqnum counter -/

/-- `m_seqnum` bookkeeping: only `NewLines` moves the running counter, and
it adds exactly its argument when the aligned stack is nonempty. -/
theorem seqPres (f : Nat) :
    (∀ pc q s t, addF f pc q s = some t → t.m_seqnum = s.m_seqnum) ∧
    (∀ s t, reAddSkippedF f s = some t → t.m_seqnum = s.m_seqnum) ∧
    (∀ idx s t, replayF f idx s = some t → t.m_seqnum = s.m_seqnum) ∧
    (∀ c s t, newLinesF f c s = some t →
      (s.m_aligned = [] ∧ t = s) ∨ t.m_seqnum = s.m_seqnum + c) ∧
    (∀ s t, flushF f s = some t → t.m_seqnum = s.m_seqnum) := by
  induction f with
  | zero =>
    refine ⟨?_, ?_, ?_, ?_, ?_⟩ <;> intros <;> simp_all [addF_zero,
      reAddSkippedF_zero, replayF_zero, newLinesF_zero, flushF_zero]
  | succ f ih =>
    obtain ⟨ihA, ihR, ihP, ihN, ihF⟩ := ih
    refine ⟨?_, ?_, ?_, ?_, ?_⟩
    · intro pc q s t h
      rw [addF_succ] at h
      split_ifs at h with hacc hgrow hsk
      · obtain rfl : growState s pc q = t := by injection h
        simp [growState, acceptState]
      · rw [ihR _ _ h]; simp [growState, acceptState]
      · obtain rfl : acceptState s pc q = t := by injection h
        simp [acceptState]
      · obtain rfl : rejectState s pc q = t := by injection h
        simp [rejectState]
    · intro s t h
      rw [reAddSkippedF_succ] at h
      split_ifs at h with hsk
      · obtain rfl : s = t := by injection h
        rfl
      · obtain ⟨w, hw, hnl⟩ := Option.bind_eq_some.mp h
        have h1 := ihP _ _ _ hw
        have h2 := ihN _ _ _ hnl
        rcases h2 with ⟨_, rfl⟩ | h2
        · rw [h1]; simp [snapScratch]
        · rw [h2, h1]; simp [snapScratch]
    · intro idx s t h
      rcases hscr : s.m_scratch[idx]? with _ | ce
      · rw [replayF_stop f idx s hscr] at h
        obtain rfl : s = t := by injection h
        rfl
      · rw [replayF_step f idx s ce hscr] at h
        obtain ⟨w, hw, hrest⟩ := Option.bind_eq_some.mp h
        rw [ihP _ _ _ hrest, ihA _ _ _ _ hw]
    · intro c s t h
      rw [newLinesF_succ] at h
      split_ifs at h with hemp hspan
      · obtain rfl : s = t := by injection h
        exact Or.inl ⟨List.isEmpty_iff.mp hemp, rfl⟩
      · right; rw [ihF _ _ h]
      · obtain rfl : { s with m_seqnum := s.m_seqnum + c } = t := by injection h
        right; rfl
    · intro s t h
      rw [flushF_succ] at h
      split_ifs at h with hsk
      · obtain rfl : { commitState s with m_nl_seqnum := s.m_seqnum } = t := by
          injection h
        simp [commitState, applyAll]
      · rw [ihR _ _ h]; simp [commitState, applyAll]

/-! ### Token conservation

Entries are only ever moved between the two collections, committed to the
applier, or discarded; they are never duplicated.  We count, for a fixed
token value, its occurrences in play plus its applier and discard events:
no operation other than `Add` can increase this total. -/

/-- Does this entry carry token `pc`? -/
def entTok (pc : Token) (ce : Entry) : Bool := decide (ce.m_pc = pc)

/-- Number of entries carrying token `pc`. -/
def tokCount (L : List Entry) (pc : Token) : Nat := L.countP (entTok pc)

/-- Is this event an applier invocation for token `pc`? -/
def evApplyTok (pc : Token) : Ev → Bool
  | Ev.apply p _ => decide (p = pc)
  | _ => false

/-- Is this event a discard of token `pc`? -/
def evDiscardTok (pc : Token) : Ev → Bool
  | Ev.discardA p _ => decide (p = pc)
  | Ev.discardS p _ => decide (p = pc)
  | _ => false

/-- Number of applier invocations for token `pc` in a trace. -/
def applyCount (tr : List Ev) (pc : Token) : Nat := tr.countP (evApplyTok pc)

/-- Number of discards of token `pc` in a trace. -/
def discardCount (tr : List Ev) (pc : Token) : Nat := tr.countP (evDiscardTok pc)

/-- Occurrences of token `pc` in play plus its applier and discard
events. -/
def totalCount (s : AlignStack) (pc : Token) : Nat :=
  tokCount s.m_aligned pc + tokCount s.m_skipped pc
    + applyCount s.trace pc + discardCount s.trace pc

theorem totalCount_acceptState (s : AlignStack) (pc0 : Token) (q : Int)
    (pc : Token) :
    totalCount (acceptState s pc0 q) pc
      = totalCount s pc + (if pc0 = pc then 1 else 0) := by
  simp only [totalCount, acceptState, tokCount, applyCount, discardCount,
    List.countP_append]
  by_cases h : pc0 = pc <;>
    simp [h, entTok, evApplyTok, evDiscardTok, List.countP_cons] <;> omega

theorem totalCount_growState (s : AlignStack) (pc0 : Token) (q : Int)
    (pc : Token) :
    totalCount (growState s pc0 q) pc
      = totalCount s pc + (if pc0 = pc then 1 else 0) := by
  have : totalCount (growState s pc0 q) pc = totalCount (acceptState s pc0 q) pc := rfl
  rw [this, totalCount_acceptState]

theorem totalCount_rejectState (s : AlignStack) (pc0 : Token) (q : Int)
    (pc : Token) :
    totalCount (rejectState s pc0 q) pc
      = totalCount s pc + (if pc0 = pc then 1 else 0) := by
  simp only [totalCount, rejectState, tokCount, applyCount, discardCount,
    List.countP_append]
  by_cases h : pc0 = pc <;>
    simp [h, entTok, evApplyTok, evDiscardTok, List.countP_cons] <;> omega

theorem totalCount_snapScratch (s : AlignStack) (pc : Token) :
    totalCount (snapScratch s) pc + tokCount s.m_skipped pc
      = totalCount s pc := by
  simp only [totalCount, snapScratch, tokCount]
  simp [List.countP_nil]; omega

theorem applyCount_applyAll (L : List Entry) (m : Int) (pc : Token) :
    (L.map (fun ce => Ev.apply ce.m_pc (m - ce.m_pc.len))).countP (evApplyTok pc)
      = tokCount L pc := by
  rw [List.countP_map]
  rfl

theorem totalCount_commitState (s : AlignStack) (pc : Token) :
    totalCount (commitState s) pc = totalCount s pc := by
  simp only [totalCount, commitState, applyAll, tokCount, applyCount,
    discardCount, List.countP_append, List.countP_nil]
  have h1 := applyCount_applyAll s.m_aligned s.m_max_col pc
  have h2 : (s.m_aligned.map
      (fun ce => Ev.apply ce.m_pc (s.m_max_col - ce.m_pc.len))).countP
        (evDiscardTok pc) = 0 := by
    rw [List.countP_map]
    apply List.countP_eq_zero.mpr
    intro ce _
    simp [Function.comp, evDiscardTok]
  simp only [applyCount, tokCount] at h1
  omega

theorem tokCount_flushKeep_le (s : AlignStack) (pc : Token) :
    tokCount (flushKeep s) pc ≤ tokCount s.m_skipped pc :=
  List.Sublist.countP_le _ (List.filter_sublist _)

/-- Conservation with scratch bookkeeping.  The token-count part: no
internal operation increases the total count of a token, except that one
`Add` contributes at most one copy of its own token, and the re-add loop
starting at `idx` contributes at most the tokens of the scratch suffix
from `idx`.  The structural part tracks the shared scratch member: a call
either leaves `m_scratch` untouched (growing `m_skipped` by at most one
entry for `Add`), or it clobbered `m_scratch` with an intermediate
skipped stack, in which case the final scratch is no longer than the
entry skipped stack and bounds the final skipped stack.  The structural
part is what makes the loop stop right after a nested clobber. -/
theorem consLe (f : Nat) :
    (∀ pc0 q s t pc, addF f pc0 q s = some t →
      (totalCount t pc ≤ totalCount s pc + (if pc0 = pc then 1 else 0)) ∧
      ((t.m_scratch = s.m_scratch ∧
          t.m_skipped.length ≤ s.m_skipped.length + 1) ∨
       (t.m_scratch.length ≤ s.m_skipped.length ∧
          t.m_skipped.length ≤ t.m_scratch.length))) ∧
    (∀ s t pc, reAddSkippedF f s = some t →
      totalCount t pc ≤ totalCount s pc ∧
      ((t.m_scratch = s.m_scratch ∧ t.m_skipped.length ≤ s.m_skipped.length) ∨
       (t.m_scratch.length ≤ s.m_skipped.length ∧
          t.m_skipped.length ≤ t.m_scratch.length))) ∧
    (∀ idx s t pc, s.m_skipped.length ≤ idx → replayF f idx s = some t →
      totalCount t pc ≤ totalCount s pc + tokCount (s.m_scratch.drop idx) pc ∧
      ((t.m_scratch = s.m_scratch ∧
          (t.m_skipped.length ≤ s.m_skipped.length ∨
           t.m_skipped.length ≤ s.m_scratch.length)) ∨
       (t.m_scratch.length ≤ s.m_scratch.length ∧
          t.m_skipped.length ≤ t.m_scratch.length))) ∧
    (∀ c s t pc, newLinesF f c s = some t →
      totalCount t pc ≤ totalCount s pc ∧
      ((t.m_scratch = s.m_scratch ∧ t.m_skipped.length ≤ s.m_skipped.length) ∨
       (t.m_scratch.length ≤ s.m_skipped.length ∧
          t.m_skipped.length ≤ t.m_scratch.length))) ∧
    (∀ s t pc, flushF f s = some t →
      totalCount t pc ≤ totalCount s pc ∧
      ((t.m_scratch = s.m_scratch ∧ t.m_skipped.length ≤ s.m_skipped.length) ∨
       (t.m_scratch.length ≤ s.m_skipped.length ∧
          t.m_skipped.length ≤ t.m_scratch.length))) := by
  induction f with
  | zero =>
    refine ⟨?_, ?_, ?_, ?_, ?_⟩ <;> intros <;> simp_all [addF_zero,
      reAddSkippedF_zero, replayF_zero, newLinesF_zero, flushF_zero]
  | succ f ih =>
    obtain ⟨ihA, ihR, ihP, ihN, ihF⟩ := ih
    refine ⟨?_, ?_, ?_, ?_, ?_⟩
    · -- addF
      intro pc0 q s t pc h
      rw [addF_succ] at h
      split_ifs at h with hacc hgrow hsk
      · obtain rfl : growState s pc0 q = t := by injection h
        refine ⟨le_of_eq (totalCount_growState s pc0 q pc), Or.inl ⟨rfl, ?_⟩⟩
        have e : (growState s pc0 q).m_skipped.length
            = s.m_skipped.length := rfl
        omega
      · obtain ⟨h1, h2⟩ := ihR _ _ pc h
        rw [totalCount_growState] at h1
        refine ⟨h1, ?_⟩
        have e1 : (growState s pc0 q).m_scratch = s.m_scratch := rfl
        have e2 : (growState s pc0 q).m_skipped.length
            = s.m_skipped.length := rfl
        rcases h2 with ⟨ha, hb⟩ | ⟨ha, hb⟩
        · exact Or.inl ⟨ha.trans e1, by omega⟩
        · exact Or.inr ⟨by omega, hb⟩
      · obtain rfl : acceptState s pc0 q = t := by injection h
        refine ⟨le_of_eq (totalCount_acceptState s pc0 q pc), Or.inl ⟨rfl, ?_⟩⟩
        have e : (acceptState s pc0 q).m_skipped.length
            = s.m_skipped.length := rfl
        omega
      · obtain rfl : rejectState s pc0 q = t := by injection h
        refine ⟨le_of_eq (totalCount_rejectState s pc0 q pc), Or.inl ⟨rfl, ?_⟩⟩
        have e : (rejectState s pc0 q).m_skipped.length
            = s.m_skipped.length + 1 := by
          simp [rejectState]
        omega
    · -- reAddSkippedF
      intro s t pc h
      rw [reAddSkippedF_succ] at h
      split_ifs at h with hsk
      · obtain rfl : s = t := by injection h
        exact ⟨le_refl _, Or.inl ⟨rfl, le_refl _⟩⟩
      · obtain ⟨w, hw, hnl⟩ := Option.bind_eq_some.mp h
        have hz : (snapScratch s).m_skipped.length ≤ 0 := by simp [snapScratch]
        obtain ⟨hP1, hP2⟩ := ihP 0 _ _ pc hz hw
        obtain ⟨hN1, hN2⟩ := ihN _ _ _ pc hnl
        have hdz : (snapScratch s).m_scratch.drop 0 = s.m_skipped := by
          simp [snapScratch]
        rw [hdz] at hP1
        have hts := totalCount_snapScratch s pc
        refine ⟨by omega, ?_⟩
        have escr : (snapScratch s).m_scratch.length
            = s.m_skipped.length := rfl
        have eskp : (snapScratch s).m_skipped.length = 0 := rfl
        -- in every case the final skipped is bounded by the entry skipped
        have hwscr : w.m_scratch.length ≤ s.m_skipped.length := by
          rcases hP2 with ⟨ha, _⟩ | ⟨ha, _⟩
          · have : w.m_scratch.length = (snapScratch s).m_scratch.length := by
              rw [ha]
            omega
          · omega
        have hwks : w.m_skipped.length ≤ w.m_scratch.length := by
          rcases hP2 with ⟨ha, hb | hb⟩ | ⟨ha, hb⟩
          · have e : w.m_scratch.length = (snapScratch s).m_scratch.length := by
              rw [ha]
            omega
          · have e : w.m_scratch.length = (snapScratch s).m_scratch.length := by
              rw [ha]
            omega
          · omega
        rcases hN2 with ⟨hc, hd⟩ | ⟨hc, hd⟩
        · have e : t.m_scratch.length = w.m_scratch.length := by rw [hc]
          exact Or.inr ⟨by omega, by omega⟩
        · exact Or.inr ⟨by omega, hd⟩
    · -- replayF
      intro idx s t pc hle h
      rcases hscr : s.m_scratch[idx]? with _ | ce
      · rw [replayF_stop f idx s hscr] at h
        obtain rfl : s = t := by injection h
        exact ⟨Nat.le_add_right _ _, Or.inl ⟨rfl, Or.inl (le_refl _)⟩⟩
      · rw [replayF_step f idx s ce hscr] at h
        obtain ⟨w, hw, hrest⟩ := Option.bind_eq_some.mp h
        have hlt : idx < s.m_scratch.length := by
          by_contra hcon
          rw [List.getElem?_eq_none (by omega)] at hscr
          exact absurd hscr (by simp)
        have hdrop : s.m_scratch.drop idx = ce :: s.m_scratch.drop (idx+1) := by
          rw [List.drop_eq_getElem_cons hlt]
          congr 1
          have hg := List.getElem?_eq_getElem hlt
          rw [hg] at hscr
          exact Option.some_inj.mp hscr
        have hcnt : tokCount (s.m_scratch.drop idx) pc
            = (if ce.m_pc = pc then 1 else 0)
              + tokCount (s.m_scratch.drop (idx+1)) pc := by
          rw [hdrop]
          simp only [tokCount, List.countP_cons, entTok]
          by_cases hc : ce.m_pc = pc <;> simp [hc] <;> omega
        obtain ⟨hA1, hA2⟩ := ihA _ _ _ _ pc hw
        rcases hA2 with ⟨ha, hb⟩ | ⟨ha, hb⟩
        · -- Add did not clobber scratch
          obtain ⟨hP1, hP2⟩ := ihP (idx+1) _ _ pc (by omega) hrest
          rw [ha] at hP1
          refine ⟨by omega, ?_⟩
          have ewl : w.m_scratch.length = s.m_scratch.length := by rw [ha]
          rcases hP2 with ⟨hc, hd⟩ | ⟨hc, hd⟩
          · refine Or.inl ⟨hc.trans ha, ?_⟩
            rcases hd with hd | hd
            · exact Or.inr (by omega)
            · exact Or.inr (by omega)
          · exact Or.inr ⟨by omega, hd⟩
        · -- Add clobbered scratch; the loop stops at the next index
          have hwd : w.m_scratch.drop (idx+1) = [] :=
            List.drop_eq_nil_of_le (by omega)
          obtain ⟨hP1, hP2⟩ := ihP (idx+1) _ _ pc (by omega) hrest
          rw [hwd] at hP1
          have hz0 : tokCount ([] : List Entry) pc = 0 := rfl
          rw [hz0] at hP1
          refine ⟨by omega, ?_⟩
          rcases hP2 with ⟨hc, hd⟩ | ⟨hc, hd⟩
          · have ewl : t.m_scratch.length = w.m_scratch.length := by rw [hc]
            refine Or.inr ⟨by omega, ?_⟩
            rcases hd with hd | hd
            · omega
            · omega
          · exact Or.inr ⟨by omega, hd⟩
    · -- newLinesF
      intro c s t pc h
      rw [newLinesF_succ] at h
      split_ifs at h with hemp hspan
      · obtain rfl : s = t := by injection h
        exact ⟨le_refl _, Or.inl ⟨rfl, le_refl _⟩⟩
      · obtain ⟨h1, h2⟩ := ihF _ _ pc h
        have e1 : totalCount { s with m_seqnum := s.m_seqnum + c } pc
            = totalCount s pc := rfl
        rw [e1] at h1
        exact ⟨h1, h2⟩
      · obtain rfl : { s with m_seqnum := s.m_seqnum + c } = t := by injection h
        exact ⟨le_refl _, Or.inl ⟨rfl, le_refl _⟩⟩
    · -- flushF
      intro s t pc h
      rw [flushF_succ] at h
      split_ifs at h with hsk
      · obtain rfl : { commitState s with m_nl_seqnum := s.m_seqnum } = t := by
          injection h
        have h1 : totalCount { commitState s with m_nl_seqnum := s.m_seqnum } pc
            = totalCount (commitState s) pc := rfl
        exact ⟨le_of_eq (h1.trans (totalCount_commitState s pc)),
          Or.inl ⟨rfl, le_refl _⟩⟩
      · obtain ⟨h1, h2⟩ := ihR _ _ pc h
        have hkeep : (flushKeep s).length ≤ s.m_skipped.length :=
          List.length_filter_le _ _
        have h3 : totalCount { commitState s with m_skipped := flushKeep s } pc
            ≤ totalCount (commitState s) pc := by
          simp only [totalCount, commitState, applyAll]
          have := tokCount_flushKeep_le s pc
          simp only [tokCount] at this ⊢
          omega
        have h4 := totalCount_commitState s pc
        refine ⟨by omega, ?_⟩
        have e1 : ({ commitState s with m_skipped := flushKeep s }).m_scratch
            = s.m_scratch := rfl
        have e2 : ({ commitState s with m_skipped := flushKeep s }).m_skipped.length
            = (flushKeep s).length := rfl
        rcases h2 with ⟨ha, hb⟩ | ⟨ha, hb⟩
        · exact Or.inl ⟨ha.trans e1, by omega⟩
        · exact Or.inr ⟨by omega, hb⟩

/-- `End` also conserves token totals: the clears are compensated by the
recorded discard events. -/
theorem totalCount_clearBoth (t : AlignStack) (pc : Token) :
    totalCount (clearBoth t) pc = totalCount t pc := by
  simp only [totalCount, clearBoth, tokCount, applyCount, discardCount,
    List.countP_append, List.countP_nil]
  have hA : (t.m_aligned.map
      (fun ce => Ev.discardA ce.m_pc ce.m_seqnum)).countP (evDiscardTok pc)
        = t.m_aligned.countP (entTok pc) := by
    rw [List.countP_map]; rfl
  have hS : (t.m_skipped.map
      (fun ce => Ev.discardS ce.m_pc ce.m_seqnum)).countP (evDiscardTok pc)
        = t.m_skipped.countP (entTok pc) := by
    rw [List.countP_map]; rfl
  have hA0 : (t.m_aligned.map
      (fun ce => Ev.discardA ce.m_pc ce.m_seqnum)).countP (evApplyTok pc) = 0 := by
    rw [List.countP_map]
    exact List.countP_eq_zero.mpr (fun ce _ => by simp [Function.comp, evApplyTok])
  have hS0 : (t.m_skipped.map
      (fun ce => Ev.discardS ce.m_pc ce.m_seqnum)).countP (evApplyTok pc) = 0 := by
    rw [List.countP_map]
    exact List.countP_eq_zero.mpr (fun ce _ => by simp [Function.comp, evApplyTok])
  omega

/-! ### State invariants -/

/-- The spec's state predicate `m_max_col == 0 iff m_aligned empty`,
strengthened with the side condition that every skipped token has a
positive end column (needed for preservation under replay). -/
def invMA (s : AlignStack) : Prop :=
  (s.m_max_col = 0 ↔ s.m_aligned = []) ∧
    ∀ ce ∈ s.m_skipped, 0 < ce.m_pc.column + ce.m_pc.len

instance (s : AlignStack) : Decidable (invMA s) := by
  unfold invMA; exact inferInstance

/-- The spec's invariant `nl_seqnum ≤ seqnum`, strengthened with the side
condition that every skipped entry's seqnum is bounded by the running
counter (needed for preservation under replay). -/
def invNL (s : AlignStack) : Prop :=
  s.m_nl_seqnum ≤ s.m_seqnum ∧ ∀ ce ∈ s.m_skipped, ce.m_seqnum ≤ s.m_seqnum

instance (s : AlignStack) : Decidable (invNL s) := by
  unfold invNL; exact inferInstance

/-- Every token held in the scratch member has a positive end column. -/
def scrPos (s : AlignStack) : Prop :=
  ∀ ce ∈ s.m_scratch, 0 < ce.m_pc.column + ce.m_pc.len

/-- Every entry held in the scratch member has its seqnum bounded by the
running counter. -/
def scrSeq (s : AlignStack) : Prop :=
  ∀ ce ∈ s.m_scratch, ce.m_seqnum ≤ s.m_seqnum

/-- Preservation of `invMA` by the internal operations, for tokens with
positive end column.  Each conjunct also reports that the scratch member
is either untouched or was overwritten with positive-end-column entries,
which is what the re-add loop needs. -/
theorem invMA_pres (f : Nat) :
    (∀ pc q s t, 0 < pc.column + pc.len → invMA s → addF f pc q s = some t →
      invMA t ∧ (t.m_scratch = s.m_scratch ∨ scrPos t)) ∧
    (∀ s t, invMA s → reAddSkippedF f s = some t →
      invMA t ∧ (t.m_scratch = s.m_scratch ∨ scrPos t)) ∧
    (∀ idx s t, scrPos s → invMA s → replayF f idx s = some t →
      invMA t ∧ scrPos t) ∧
    (∀ c s t, invMA s → newLinesF f c s = some t →
      invMA t ∧ (t.m_scratch = s.m_scratch ∨ scrPos t)) ∧
    (∀ s t, invMA s → flushF f s = some t →
      invMA t ∧ (t.m_scratch = s.m_scratch ∨ scrPos t)) := by
  induction f with
  | zero =>
    refine ⟨?_, ?_, ?_, ?_, ?_⟩ <;> intros <;> simp_all [addF_zero,
      reAddSkippedF_zero, replayF_zero, newLinesF_zero, flushF_zero]
  | succ f ih =>
    obtain ⟨ihA, ihR, ihP, ihN, ihF⟩ := ih
    refine ⟨?_, ?_, ?_, ?_, ?_⟩
    · intro pc q s t hpos hs h
      rw [addF_succ] at h
      split_ifs at h with hacc hgrow hsk
      · obtain rfl : growState s pc q = t := by injection h
        refine ⟨⟨?_, fun ce hce => hs.2 ce hce⟩, Or.inl rfl⟩
        simp only [growState, acceptState]
        constructor
        · intro h0; omega
        · intro h0; simp at h0
      · have hgMA : invMA (growState s pc q) := by
          refine ⟨?_, fun ce hce => hs.2 ce hce⟩
          simp only [growState, acceptState]
          constructor
          · intro h0; omega
          · intro h0; simp at h0
        obtain ⟨h1, h2⟩ := ihR _ _ hgMA h
        refine ⟨h1, ?_⟩
        rcases h2 with h2 | h2
        · exact Or.inl h2
        · exact Or.inr h2
      · obtain rfl : acceptState s pc q = t := by injection h
        refine ⟨⟨?_, fun ce hce => hs.2 ce hce⟩, Or.inl rfl⟩
        simp only [acceptState]
        constructor
        · intro h0
          exfalso
          omega
        · intro h0; simp at h0
      · obtain rfl : rejectState s pc q = t := by injection h
        refine ⟨⟨hs.1, ?_⟩, Or.inl rfl⟩
        intro ce hce
        simp only [rejectState, List.mem_append, List.mem_singleton] at hce
        rcases hce with hce | rfl
        · exact hs.2 ce hce
        · exact hpos
    · intro s t hs h
      rw [reAddSkippedF_succ] at h
      split_ifs at h with hsk
      · obtain rfl : s = t := by injection h
        exact ⟨hs, Or.inl rfl⟩
      · obtain ⟨w, hw, hnl⟩ := Option.bind_eq_some.mp h
        have hsnapP : scrPos (snapScratch s) := by
          intro ce hce
          exact hs.2 ce hce
        have hsnapMA : invMA (snapScratch s) := by
          refine ⟨hs.1, ?_⟩
          intro ce hce
          simp [snapScratch] at hce
        obtain ⟨hwMA, hwP⟩ := ihP 0 _ _ hsnapP hsnapMA hw
        obtain ⟨h1, h2⟩ := ihN _ _ _ hwMA hnl
        refine ⟨h1, Or.inr ?_⟩
        rcases h2 with h2 | h2
        · intro ce hce
          rw [h2] at hce
          exact hwP ce hce
        · exact h2
    · intro idx s t hsp hs h
      rcases hscr : s.m_scratch[idx]? with _ | ce
      · rw [replayF_stop f idx s hscr] at h
        obtain rfl : s = t := by injection h
        exact ⟨hs, hsp⟩
      · rw [replayF_step f idx s ce hscr] at h
        obtain ⟨w, hw, hrest⟩ := Option.bind_eq_some.mp h
        have hcepos : 0 < ce.m_pc.column + ce.m_pc.len :=
          hsp ce (List.getElem?_mem hscr)
        obtain ⟨hwMA, hwS⟩ := ihA _ _ _ _ hcepos hs hw
        have hwP : scrPos w := by
          rcases hwS with hwS | hwS
          · intro ce' hce'
            rw [hwS] at hce'
            exact hsp ce' hce'
          · exact hwS
        exact ihP (idx+1) _ _ hwP hwMA hrest
    · intro c s t hs h
      rw [newLinesF_succ] at h
      split_ifs at h with hemp hspan
      · obtain rfl : s = t := by injection h
        exact ⟨hs, Or.inl rfl⟩
      · exact ihF { s with m_seqnum := s.m_seqnum + c } t ⟨hs.1, hs.2⟩ h
      · obtain rfl : { s with m_seqnum := s.m_seqnum + c } = t := by injection h
        exact ⟨⟨hs.1, hs.2⟩, Or.inl rfl⟩
    · intro s t hs h
      rw [flushF_succ] at h
      split_ifs at h with hsk
      · obtain rfl : { commitState s with m_nl_seqnum := s.m_seqnum } = t := by
          injection h
        refine ⟨⟨by simp [commitState, applyAll], fun ce hce => hs.2 ce hce⟩,
          Or.inl rfl⟩
      · have h3MA : invMA { commitState s with m_skipped := flushKeep s } := by
          refine ⟨by simp [commitState, applyAll], ?_⟩
          intro ce hce
          have hmem : ce ∈ s.m_skipped := by
            have hsub : List.Sublist (flushKeep s) s.m_skipped :=
              List.filter_sublist _
            exact hsub.mem hce
          exact hs.2 ce hmem
        obtain ⟨h1, h2⟩ := ihR _ _ h3MA h
        exact ⟨h1, h2⟩

/-- Preservation of `invNL` by the internal operations, for `Add` seqnums
bounded by the running counter and nonnegative `NewLines` counts.  Each
conjunct also reports that the scratch member is either untouched or was
overwritten with entries whose seqnums are bounded by the running
counter. -/
theorem invNL_pres (f : Nat) :
    (∀ pc q s t, (q = 0 ∨ q ≤ s.m_seqnum) → invNL s → addF f pc q s = some t →
      invNL t ∧ (t.m_scratch = s.m_scratch ∨ scrSeq t)) ∧
    (∀ s t, invNL s → reAddSkippedF f s = some t →
      invNL t ∧ (t.m_scratch = s.m_scratch ∨ scrSeq t)) ∧
    (∀ idx s t, scrSeq s → invNL s → replayF f idx s = some t →
      invNL t ∧ scrSeq t) ∧
    (∀ c s t, 0 ≤ c → invNL s → newLinesF f c s = some t →
      invNL t ∧ (t.m_scratch = s.m_scratch ∨ scrSeq t)) ∧
    (∀ s t, invNL s → flushF f s = some t →
      invNL t ∧ (t.m_scratch = s.m_scratch ∨ scrSeq t)) := by
  induction f with
  | zero =>
    refine ⟨?_, ?_, ?_, ?_, ?_⟩ <;> intros <;> simp_all [addF_zero,
      reAddSkippedF_zero, replayF_zero, newLinesF_zero, flushF_zero]
  | succ f ih =>
    obtain ⟨ihA, ihR, ihP, ihN, ihF⟩ := ih
    refine ⟨?_, ?_, ?_, ?_, ?_⟩
    · intro pc q s t hq hs h
      have hq' : resolveSeq s q ≤ s.m_seqnum := by
        rcases hq with rfl | hq <;> simp [resolveSeq] <;> omega
      rw [addF_succ] at h
      split_ifs at h with hacc hgrow hsk
      · obtain rfl : growState s pc q = t := by injection h
        refine ⟨⟨?_, fun ce hce => hs.2 ce hce⟩, Or.inl rfl⟩
        simp only [growState, acceptState]
        have := hs.1
        split_ifs <;> omega
      · have hgNL : invNL (growState s pc q) := by
          refine ⟨?_, fun ce hce => hs.2 ce hce⟩
          simp only [growState, acceptState]
          have := hs.1
          split_ifs <;> omega
        obtain ⟨h1, h2⟩ := ihR _ _ hgNL h
        exact ⟨h1, h2⟩
      · obtain rfl : acceptState s pc q = t := by injection h
        refine ⟨⟨?_, fun ce hce => hs.2 ce hce⟩, Or.inl rfl⟩
        simp only [acceptState]
        have := hs.1
        split_ifs <;> omega
      · obtain rfl : rejectState s pc q = t := by injection h
        refine ⟨⟨hs.1, ?_⟩, Or.inl rfl⟩
        intro ce hce
        simp only [rejectState, List.mem_append, List.mem_singleton] at hce
        rcases hce with hce | rfl
        · exact hs.2 ce hce
        · exact hq'
    · intro s t hs h
      rw [reAddSkippedF_succ] at h
      split_ifs at h with hsk
      · obtain rfl : s = t := by injection h
        exact ⟨hs, Or.inl rfl⟩
      · obtain ⟨w, hw, hnl⟩ := Option.bind_eq_some.mp h
        have hsnapS : scrSeq (snapScratch s) := by
          intro ce hce
          exact hs.2 ce hce
        have hsnapNL : invNL (snapScratch s) := by
          refine ⟨hs.1, ?_⟩
          intro ce hce
          simp [snapScratch] at hce
        obtain ⟨hwNL, hwS⟩ := ihP 0 _ _ hsnapS hsnapNL hw
        obtain ⟨h1, h2⟩ := ihN _ _ _ le_rfl hwNL hnl
        refine ⟨h1, Or.inr ?_⟩
        have htw : t.m_seqnum = w.m_seqnum := by
          rcases (seqPres f).2.2.2.1 0 w t hnl with ⟨_, rfl⟩ | htw
          · rfl
          · omega
        rcases h2 with h2 | h2
        · intro ce hce
          rw [h2] at hce
          rw [htw]
          exact hwS ce hce
        · exact h2
    · intro idx s t hsq hs h
      rcases hscr : s.m_scratch[idx]? with _ | ce
      · rw [replayF_stop f idx s hscr] at h
        obtain rfl : s = t := by injection h
        exact ⟨hs, hsq⟩
      · rw [replayF_step f idx s ce hscr] at h
        obtain ⟨w, hw, hrest⟩ := Option.bind_eq_some.mp h
        have hceq : ce.m_seqnum ≤ s.m_seqnum :=
          hsq ce (List.getElem?_mem hscr)
        obtain ⟨hwNL, hwS⟩ := ihA _ _ _ _ (Or.inr hceq) hs hw
        have hws : w.m_seqnum = s.m_seqnum := (seqPres f).1 _ _ _ _ hw
        have hwSq : scrSeq w := by
          rcases hwS with hwS | hwS
          · intro ce' hce'
            rw [hwS] at hce'
            rw [hws]
            exact hsq ce' hce'
          · exact hwS
        exact ihP (idx+1) _ _ hwSq hwNL hrest
    · intro c s t hc hs h
      rw [newLinesF_succ] at h
      split_ifs at h with hemp hspan
      · obtain rfl : s = t := by injection h
        exact ⟨hs, Or.inl rfl⟩
      · have hNL1 : invNL { s with m_seqnum := s.m_seqnum + c } := by
          refine ⟨?_, ?_⟩
          · have := hs.1; simp; omega
          · intro ce hce
            have := hs.2 ce hce
            simp; omega
        obtain ⟨h1, h2⟩ := ihF { s with m_seqnum := s.m_seqnum + c } t hNL1 h
        exact ⟨h1, h2⟩
      · obtain rfl : { s with m_seqnum := s.m_seqnum + c } = t := by injection h
        refine ⟨⟨?_, ?_⟩, Or.inl rfl⟩
        · have := hs.1; simp; omega
        · intro ce hce
          have := hs.2 ce hce
          simp; omega
    · intro s t hs h
      rw [flushF_succ] at h
      split_ifs at h with hsk
      · obtain rfl : { commitState s with m_nl_seqnum := s.m_seqnum } = t := by
          injection h
        exact ⟨⟨le_rfl, fun ce hce => hs.2 ce hce⟩, Or.inl rfl⟩
      · have h3NL : invNL { commitState s with m_skipped := flushKeep s } := by
          refine ⟨hs.1, ?_⟩
          intro ce hce
          have hmem : ce ∈ s.m_skipped := by
            have hsub : List.Sublist (flushKeep s) s.m_skipped :=
              List.filter_sublist _
            exact hsub.mem hce
          exact hs.2 ce hmem
        obtain ⟨h1, h2⟩ := ihR _ _ h3NL h
        exact ⟨h1, h2⟩

/-! ### Session-level conservation -/

/-- Is this call a `Start`? -/
def isStartOp : Op → Bool
  | Op.start _ _ => true
  | _ => false

/-- How many copies of token `pc` does this call hand to the engine? -/
def opAddTok (op : Op) (pc : Token) : Nat :=
  match op with
  | Op.add pc0 _ => if pc0 = pc then 1 else 0
  | _ => 0

/-- Total copies of token `pc` handed to the engine by a call sequence. -/
def addTokCount (ops : List Op) (pc : Token) : Nat :=
  (ops.map (fun op => opAddTok op pc)).sum

/-- The token of an `Add` call, if any. -/
def getAddTok : Op → Option Token
  | Op.add pc _ => some pc
  | _ => none

theorem totalCount_endF (f : Nat) (s t : AlignStack) (pc : Token)
    (h : endF f s = some t) : totalCount t pc ≤ totalCount s pc := by
  unfold endF at h
  obtain ⟨u, hu, rfl⟩ := Option.map_eq_some'.mp h
  rw [totalCount_clearBoth]
  split_ifs at hu with hemp
  · obtain rfl : s = u := by injection hu
    exact le_refl _
  · exact ((consLe f).2.2.2.2 _ _ pc hu).1

/-- One non-`Start` call increases a token total by at most the copies it
hands over. -/
theorem execOp_consLe (f : Nat) (op : Op) (s t : AlignStack) (pc : Token)
    (hns : isStartOp op = false) (h : execOpF f op s = some t) :
    totalCount t pc ≤ totalCount s pc + opAddTok op pc := by
  match op with
  | Op.start a b => simp [isStartOp] at hns
  | Op.add pc0 q => exact ((consLe f).1 pc0 q s t pc h).1
  | Op.newLines c =>
    have := ((consLe f).2.2.2.1 c s t pc h).1
    simpa [opAddTok] using this
  | Op.flush =>
    have := ((consLe f).2.2.2.2 s t pc h).1
    simpa [opAddTok] using this
  | Op.finish =>
    have := totalCount_endF f s t pc h
    simpa [opAddTok] using this
  | Op.reAddSkipped =>
    have := ((consLe f).2.1 s t pc h).1
    simpa [opAddTok] using this

/-- Conservation along a `Start`-free call sequence. -/
theorem run_consLe (f : Nat) (ops : List Op) :
    ∀ s t pc, (∀ op ∈ ops, isStartOp op = false) → runF f ops s = some t →
      totalCount t pc ≤ totalCount s pc + addTokCount ops pc := by
  induction ops with
  | nil =>
    intro s t pc _ h
    obtain rfl : s = t := by
      simpa [runF] using h
    simp [addTokCount]
  | cons op ops ih =>
    intro s t pc hns h
    simp only [runF] at h
    match hw : execOpF f op s with
    | none => rw [hw] at h; exact absurd h (by simp)
    | some w =>
      rw [hw] at h
      have h1 := execOp_consLe f op s w pc (hns op (by simp)) hw
      have h2 := ih w t pc (fun o ho => hns o (by simp [ho])) h
      have h3 : addTokCount (op :: ops) pc
          = opAddTok op pc + addTokCount ops pc := by
        simp [addTokCount]
      omega

theorem addTokCount_eq_count (ops : List Op) (pc : Token) :
    addTokCount ops pc = (ops.filterMap getAddTok).count pc := by
  induction ops with
  | nil => simp [addTokCount]
  | cons op ops ih =>
    have h3 : addTokCount (op :: ops) pc
        = opAddTok op pc + addTokCount ops pc := by
      simp [addTokCount]
    rw [h3, ih]
    match op with
    | Op.add pc0 q =>
      have hfm : List.filterMap getAddTok (Op.add pc0 q :: ops)
          = pc0 :: List.filterMap getAddTok ops := by
        simp [List.filterMap_cons, getAddTok]
      rw [hfm, List.count_cons]
      simp only [opAddTok]
      by_cases hc : pc0 = pc <;> simp [hc] <;> omega
    | Op.start a b => simp [getAddTok, opAddTok]
    | Op.newLines c => simp [getAddTok, opAddTok]
    | Op.flush => simp [getAddTok, opAddTok]
    | Op.finish => simp [getAddTok, opAddTok]
    | Op.reAddSkipped => simp [getAddTok, opAddTok]

theorem totalCount_startInit (sp th : Int) (pc : Token) :
    totalCount (startF sp th initStack) pc = 0 := by
  simp [totalCount, startF, initStack, tokCount, applyCount, discardCount]

/-! ### Concrete data for witnesses and counterexamples -/

/-- Sample token: column 10, length 1. -/
def tokA : Token := ⟨10, 1, 1⟩

/-- Sample token: column 14, length 1 (just outside a threshold-2 window
around target 11). -/
def tokB : Token := ⟨14, 1, 2⟩

/-- Sample token: column 12, length 1 (inside a threshold-2 window around
target 11). -/
def tokC : Token := ⟨12, 1, 3⟩

/-- Sample token far from any group: column 50, length 1. -/
def tokF : Token := ⟨50, 1, 2⟩

/-- Sample token even farther out: column 100, length 1. -/
def tokG : Token := ⟨100, 1, 3⟩

/-- The state reached by `Start(3,1); Add(tokA)`. -/
def stateA : AlignStack :=
  ⟨[⟨tokA, 0⟩], [], [], 3, 1, 11, 0, 0, [Ev.pushA tokA 0]⟩

/-- The state reached by `Start(3,2); Add(tokA,1); Add(tokB,2)`. -/
def stateAB : AlignStack :=
  ⟨[⟨tokA, 1⟩], [⟨tokB, 2⟩], [], 3, 2, 11, 1, 0,
    [Ev.pushA tokA 1, Ev.pushS tokB 2]⟩

/-- The state reached by `Start(3,1); Add(tokA); Add(tokF)`. -/
def stateAF : AlignStack :=
  ⟨[⟨tokA, 0⟩], [⟨tokF, 0⟩], [], 3, 1, 11, 0, 0,
    [Ev.pushA tokA 0, Ev.pushS tokF 0]⟩

/-! ### Claims -/

/-- C1: for every `Add(token, seqnum)` call, the token is appended to
`Aligned` iff `max_col = 0`, or the threshold is 0, or its column lies in
the closed window `[max_col - thresh, max_col + thresh]` (the `accept`
predicate, taken verbatim from the source); otherwise it is appended to
`Skipped` and nothing else in the session state changes (`rejectState`).
The first new trace event of the call is the push onto exactly one of the
two collections. -/
theorem c1_add_placement (f : Nat) (pc : Token) (q : Int) (s t : AlignStack)
    (h : addF (f+1) pc q s = some t) :
    (accept s pc →
      ∃ l, t.trace = s.trace ++ Ev.pushA pc (resolveSeq s q) :: l) ∧
    (¬ accept s pc → t = rejectState s pc q) :=
  addF_shape f pc q s t h

/-- The result of the C1 witness `Add`. -/
def wC1t : AlignStack :=
  ⟨[⟨tokA, 1⟩], [], [], 3, 2, 11, 1, 0, [Ev.pushA tokA 1]⟩

/-- Witness for C1 at a concrete accepted `Add`. -/
theorem c1_add_placement_witness :
    addF 9 tokA 1 (startF 3 2 initStack) = some wC1t ∧
    ((accept (startF 3 2 initStack) tokA →
      ∃ l, wC1t.trace = (startF 3 2 initStack).trace
        ++ Ev.pushA tokA (resolveSeq (startF 3 2 initStack) 1) :: l) ∧
     (¬ accept (startF 3 2 initStack) tokA →
      wC1t = rejectState (startF 3 2 initStack) tokA 1)) :=
  ⟨by decide, c1_add_placement 8 tokA 1 (startF 3 2 initStack) wC1t (by decide)⟩

/-- C2 counterexample: after `Start(3,1); Add(col 10); Add(col 50)`, the
`Flush` replays the far-away skipped token into a fresh group, so the call
returns with `Aligned` nonempty and `max_col ≠ 0`, contradicting
"afterwards Aligned is empty and max_col = 0". -/
theorem c2_flush_counterexample :
    (runF 20 [Op.start 3 1, Op.add tokA 0, Op.add tokF 0, Op.flush]
      initStack).map
        (fun t => decide (t.m_aligned = [] ∧ t.m_max_col = 0)) = some false := by
  decide

/-- C2 (amended): the applier is invoked exactly once per `Aligned` entry,
in insertion order, with target `max_col - len`, as the first trace events
of the `Flush` call; when `Skipped` is empty the call moreover returns
with `Aligned` empty, `max_col = 0`, `nl_seqnum` synced to `seqnum`, and
no further applier invocation.  (When `Skipped` is nonempty the re-add
replay may seed a new pending group, so `Aligned` need not be empty
afterwards — see the counterexample.) -/
theorem c2_flush_commit (f : Nat) (s t : AlignStack)
    (h : flushF (f+1) s = some t) :
    (∃ l, t.trace = s.trace ++
      s.m_aligned.map (fun ce => Ev.apply ce.m_pc (s.m_max_col - ce.m_pc.len))
        ++ l) ∧
    (s.m_skipped = [] →
      t.m_aligned = [] ∧ t.m_max_col = 0 ∧ t.m_nl_seqnum = s.m_seqnum ∧
      t.trace = s.trace ++
        s.m_aligned.map
          (fun ce => Ev.apply ce.m_pc (s.m_max_col - ce.m_pc.len))) := by
  refine ⟨flushF_shape f s t h, ?_⟩
  intro hsk
  rw [flushF_succ, if_pos (by simp [hsk])] at h
  obtain rfl : { commitState s with m_nl_seqnum := s.m_seqnum } = t := by
    injection h
  exact ⟨rfl, rfl, rfl, by simp [commitState, applyAll]⟩

/-- The result of the C2 witness `Flush`. -/
def wC2t : AlignStack :=
  ⟨[], [], [], 3, 1, 0, 0, 0, [Ev.pushA tokA 0, Ev.apply tokA 10]⟩

/-- Witness for the amended C2 at a concrete `Flush` with empty
`Skipped`. -/
theorem c2_flush_commit_witness :
    flushF 9 stateA = some wC2t ∧
    ((∃ l, wC2t.trace = stateA.trace ++
      stateA.m_aligned.map
        (fun ce => Ev.apply ce.m_pc (stateA.m_max_col - ce.m_pc.len)) ++ l) ∧
     (stateA.m_skipped = [] →
      wC2t.m_aligned = [] ∧ wC2t.m_max_col = 0 ∧
      wC2t.m_nl_seqnum = stateA.m_seqnum ∧
      wC2t.trace = stateA.trace ++
        stateA.m_aligned.map
          (fun ce => Ev.apply ce.m_pc (stateA.m_max_col - ce.m_pc.len)))) :=
  ⟨by decide, c2_flush_commit 8 stateA wC2t (by decide)⟩

/-- Tokens of the C3 failing input: the columns 20, 13 (length 10),
25 and 12 (length 2). -/
def tok20 : Token := ⟨20, 1, 2⟩

/-- Second C3 token: column 13 with length 10, so its acceptance grows
the target from 11 to 23. -/
def tok13 : Token := ⟨13, 10, 3⟩

/-- Third C3 token: column 25, skipped and then silently dropped. -/
def tok25 : Token := ⟨25, 1, 4⟩

/-- Fourth C3 token: column 12 with length 2; its acceptance triggers the
outer replay. -/
def tok12 : Token := ⟨12, 2, 5⟩

/-- Does this event record an `Add` placing token `pc` (a push onto
either collection)?  Each `Add` invocation on a token produces exactly
one such event. -/
def evPushTok (pc : Token) : Ev → Bool
  | Ev.pushA p _ => decide (p = pc)
  | Ev.pushS p _ => decide (p = pc)
  | _ => false

/-- The C3 failing input: `Start(100,1)` then five `Add`s. -/
def c3ops : List Op :=
  [Op.start 100 1, Op.add tokA 0, Op.add tok20 0, Op.add tok13 0,
   Op.add tok25 0, Op.add tok12 0]

/-- The state the program reaches on the C3 failing input. -/
def c3t : AlignStack :=
  ⟨[⟨tokA, 0⟩, ⟨tok12, 0⟩, ⟨tok13, 0⟩], [⟨tok20, 0⟩], [⟨tok20, 0⟩],
    100, 1, 23, 0, 0,
    [Ev.pushA tokA 0, Ev.pushS tok20 0, Ev.pushS tok13 0, Ev.pushS tok25 0,
     Ev.pushA tok12 0, Ev.pushS tok20 0, Ev.pushA tok13 0,
     Ev.pushS tok20 0]⟩

/-- Running an appended call sequence composes. -/
theorem runF_append (f : Nat) (l1 l2 : List Op) (s : AlignStack) :
    runF f (l1 ++ l2) s = (runF f l1 s).bind (runF f l2) := by
  induction l1 generalizing s with
  | nil => simp [runF]
  | cons op l1 ih =>
    simp only [List.cons_append, runF]
    cases execOpF f op s with
    | none => simp
    | some w => simp [ih]

/-- The program's run on the C3 failing input, evaluated. -/
theorem c3run : runF 12 c3ops initStack = some c3t := by decide

/-- C3 (code bug): the claim "every entry currently in Skipped is
re-evaluated by re-invoking Add on it" is false of the program.  On the
failing input, `Add(tok12)` grows the target and replays the snapshot
`[tok20, tok13, tok25]`; re-adding `tok13` grows the target again and
recurses into `ReAddSkipped`, whose `m_scratch.Set` overwrites the shared
scratch member with the shorter list `[tok20]`, so the outer loop's bound
`idx < m_scratch.Len()` fails at index 2 and `tok25` is never re-added:
it receives exactly one push event (its original `Add`) and afterwards
sits in neither collection — the token is silently dropped, contradicting
the claim and the function's own comment "Calls Add on all the skipped
items". -/
theorem c3_replay_truncation :
    runF 12 c3ops initStack = some c3t ∧
    c3t.trace.countP (evPushTok tok25) = 1 ∧
    tokCount c3t.m_aligned tok25 = 0 ∧
    tokCount c3t.m_skipped tok25 = 0 :=
  ⟨c3run, by decide, by decide, by decide⟩

/-- C4: with `Aligned` nonempty, a `NewLines(count)` call flushes iff the
updated running seqnum exceeds `nl_seqnum + span`; at or below that bound
it only advances the counter, and strictly above it (`≥ nl_seqnum + span
+ 1`, the smallest forcing value) it invokes `Flush`, whose first new
trace events are the applier invocations. -/
theorem c4_newlines_threshold (f : Nat) (c : Int) (s t : AlignStack)
    (hal : s.m_aligned ≠ [])
    (h : newLinesF (f+1) c s = some t) :
    (s.m_seqnum + c ≤ s.m_nl_seqnum + s.m_span →
      t = { s with m_seqnum := s.m_seqnum + c }) ∧
    (s.m_nl_seqnum + s.m_span + 1 ≤ s.m_seqnum + c →
      flushF f { s with m_seqnum := s.m_seqnum + c } = some t ∧
      ∃ l, t.trace = s.trace ++
        s.m_aligned.map (fun ce => Ev.apply ce.m_pc (s.m_max_col - ce.m_pc.len))
          ++ l) := by
  have hne : s.m_aligned.isEmpty = false := by
    simpa [List.isEmpty_iff] using hal
  rw [newLinesF_succ, if_neg (by simp [hne])] at h
  constructor
  · intro hle
    rw [if_neg (by omega)] at h
    exact (Option.some_inj.mp h).symm
  · intro hgt
    rw [if_pos (by omega)] at h
    refine ⟨h, ?_⟩
    match f, h with
    | g+1, h =>
      obtain ⟨l, hl⟩ := flushF_shape g _ t h
      exact ⟨l, by simpa using hl⟩

/-- The result of the C4 witness `NewLines`. -/
def wC4t : AlignStack :=
  ⟨[], [], [], 3, 1, 0, 5, 5, [Ev.pushA tokA 0, Ev.apply tokA 10]⟩

/-- Witness for C4: `NewLines(5)` from seqnum 0, `nl_seqnum` 0, span 3
forces a flush (5 ≥ 0 + 3 + 1). -/
theorem c4_newlines_threshold_witness :
    (stateA.m_aligned ≠ [] ∧ newLinesF 9 5 stateA = some wC4t) ∧
    ((stateA.m_seqnum + 5 ≤ stateA.m_nl_seqnum + stateA.m_span →
      wC4t = { stateA with m_seqnum := stateA.m_seqnum + 5 }) ∧
     (stateA.m_nl_seqnum + stateA.m_span + 1 ≤ stateA.m_seqnum + 5 →
      flushF 8 { stateA with m_seqnum := stateA.m_seqnum + 5 } = some wC4t ∧
      ∃ l, wC4t.trace = stateA.trace ++
        stateA.m_aligned.map
          (fun ce => Ev.apply ce.m_pc (stateA.m_max_col - ce.m_pc.len))
            ++ l)) :=
  ⟨⟨by decide, by decide⟩,
   c4_newlines_threshold 8 5 stateA wC4t (by decide) (by decide)⟩

/-- C5 counterexample: the predicate `max_col = 0 ↔ Aligned empty` is not
preserved for arbitrary caller tokens: a token with column 0 and length 0
is accepted into `Aligned` without growing `max_col`, leaving `Aligned`
nonempty with `max_col = 0`. -/
theorem c5_invariant_counterexample :
    (runF 9 [Op.start 1 1, Op.add ⟨0, 0, 0⟩ 0] initStack).map
      (fun t => decide (t.m_max_col = 0 ↔ t.m_aligned = [])) = some false := by
  decide

/-- C5 (amended): the predicate `max_col = 0 ↔ Aligned empty` (with the
carried side condition that skipped tokens have positive end column,
`invMA`) holds after `Start` and is preserved by `Add` for every token
with positive `column + len`, and by `NewLines`, `Flush` and
`ReAddSkipped` unconditionally.  `End` preserves it when `Skipped` is
empty at the call; in general `End` can return with `Aligned` empty but
`max_col ≠ 0`, since it clears the collections without resetting
`max_col`. -/
theorem c5_maxcol_aligned_invariant :
    (∀ sp th s, invMA (startF sp th s)) ∧
    (∀ f pc q s t, 0 < pc.column + pc.len → invMA s →
      addF f pc q s = some t → invMA t) ∧
    (∀ f c s t, invMA s → newLinesF f c s = some t → invMA t) ∧
    (∀ f s t, invMA s → flushF f s = some t → invMA t) ∧
    (∀ f s t, invMA s → reAddSkippedF f s = some t → invMA t) ∧
    (∀ f s t, s.m_skipped = [] → invMA s → endF f s = some t → invMA t) := by
  refine ⟨?_, ?_, ?_, ?_, ?_, ?_⟩
  · intro sp th s
    exact ⟨by simp [startF], by simp [startF]⟩
  · intro f pc q s t hp hs h
    exact ((invMA_pres f).1 pc q s t hp hs h).1
  · intro f c s t hs h
    exact ((invMA_pres f).2.2.2.1 c s t hs h).1
  · intro f s t hs h
    exact ((invMA_pres f).2.2.2.2 s t hs h).1
  · intro f s t hs h
    exact ((invMA_pres f).2.1 s t hs h).1
  · intro f s t hsk hs h
    unfold endF at h
    obtain ⟨u, hu, rfl⟩ := Option.map_eq_some'.mp h
    split_ifs at hu with hemp
    · obtain rfl : s = u := by injection hu
      have h0 : s.m_max_col = 0 := hs.1.mpr (List.isEmpty_iff.mp hemp)
      exact ⟨by simp [clearBoth, h0], by simp [clearBoth]⟩
    · have hu' : invMA u := ((invMA_pres f).2.2.2.2 s u hs hu).1
      match f, hu with
      | g+1, hu =>
        rw [flushF_succ, if_pos (by simp [hsk])] at hu
        obtain rfl : { commitState s with m_nl_seqnum := s.m_seqnum } = u := by
          injection hu
        exact ⟨by simp [clearBoth, commitState, applyAll],
          by simp [clearBoth]⟩

/-- Witness for the amended C5: a concrete `Add` of a positive-size token
preserving the predicate. -/
theorem c5_maxcol_aligned_invariant_witness :
    (0 < tokA.column + tokA.len ∧ invMA (startF 3 1 initStack) ∧
     addF 9 tokA 0 (startF 3 1 initStack) = some stateA) ∧
    invMA stateA :=
  ⟨⟨by decide, by decide, by decide⟩,
   c5_maxcol_aligned_invariant.2.1 9 tokA 0 (startF 3 1 initStack) stateA
     (by decide) (by decide) (by decide)⟩

/-- C6 counterexample: `NewLines(5)` on an empty `Aligned` stack is a
no-op, so afterwards the running seqnum is 0, not the sum 5 of all counts
passed since `Start`. -/
theorem c6_seqnum_counterexample :
    (runF 9 [Op.start 1 1, Op.newLines 5] initStack).map
      (fun t => decide (t.m_seqnum = 5)) = some false := by
  decide

/-- C6 (amended): the running seqnum advances by exactly `count` on a
`NewLines(count)` call made while `Aligned` is nonempty, and such a call
with `Aligned` empty is a complete no-op; `Add`, `Flush`, `ReAddSkipped`
and `End` never change the running seqnum.  Hence the counter equals the
sum of the counts of the `NewLines` calls that found `Aligned` nonempty,
and it is non-decreasing when every count is nonnegative. -/
theorem c6_seqnum_accounting :
    (∀ f c s t, newLinesF (f+1) c s = some t →
      (s.m_aligned = [] → t = s) ∧
      (s.m_aligned ≠ [] → t.m_seqnum = s.m_seqnum + c)) ∧
    (∀ f pc q s t, addF f pc q s = some t → t.m_seqnum = s.m_seqnum) ∧
    (∀ f s t, flushF f s = some t → t.m_seqnum = s.m_seqnum) ∧
    (∀ f s t, reAddSkippedF f s = some t → t.m_seqnum = s.m_seqnum) ∧
    (∀ f s t, endF f s = some t → t.m_seqnum = s.m_seqnum) ∧
    (∀ f c s t, 0 ≤ c → newLinesF f c s = some t →
      s.m_seqnum ≤ t.m_seqnum) := by
  refine ⟨?_, ?_, ?_, ?_, ?_, ?_⟩
  · intro f c s t h
    constructor
    · intro hemp
      rw [newLinesF_succ, if_pos (by simp [hemp])] at h
      exact (Option.some_inj.mp h).symm
    · intro hne
      rcases (seqPres (f+1)).2.2.2.1 c s t h with ⟨hemp, _⟩ | heq
      · exact absurd hemp hne
      · exact heq
  · intro f pc q s t h
    exact (seqPres f).1 pc q s t h
  · intro f s t h
    exact (seqPres f).2.2.2.2 s t h
  · intro f s t h
    exact (seqPres f).2.1 s t h
  · intro f s t h
    unfold endF at h
    obtain ⟨u, hu, rfl⟩ := Option.map_eq_some'.mp h
    have h2 : (clearBoth u).m_seqnum = u.m_seqnum := rfl
    rw [h2]
    split_ifs at hu with hemp
    · obtain rfl : s = u := by injection hu
      rfl
    · exact (seqPres f).2.2.2.2 s u hu
  · intro f c s t hc h
    rcases f with _ | f
    · rw [newLinesF_zero] at h; exact absurd h (by simp)
    · rcases (seqPres (f+1)).2.2.2.1 c s t h with ⟨_, rfl⟩ | heq
      · exact le_refl _
      · omega

/-- Witness for the amended C6: `NewLines(2)` in a state with a pending
group advances the counter by exactly 2. -/
theorem c6_seqnum_accounting_witness :
    (newLinesF 9 2 stateA = some { stateA with m_seqnum := 2 }) ∧
    ((stateA.m_aligned = [] → { stateA with m_seqnum := 2 } = stateA) ∧
     (stateA.m_aligned ≠ [] →
      ({ stateA with m_seqnum := 2 } : AlignStack).m_seqnum
        = stateA.m_seqnum + 2)) :=
  ⟨by decide,
   c6_seqnum_accounting.1 8 2 stateA { stateA with m_seqnum := 2 } (by decide)⟩

/-- C7 counterexample: `nl_seqnum ≤ seqnum` is not implied by monotone
`Add` seqnums alone: a single `Add` with explicit seqnum 5 (trivially
monotone) in a fresh session sets `nl_seqnum = 5` while the running
counter is still 0. -/
theorem c7_nlseq_counterexample :
    (runF 9 [Op.start 1 1, Op.add ⟨5, 1, 0⟩ 5] initStack).map
      (fun t => decide (t.m_nl_seqnum ≤ t.m_seqnum)) = some false := by
  decide

/-- C7 (amended): `nl_seqnum ≤ seqnum` (with the carried side condition
that skipped seqnums are bounded by the running counter, `invNL`) holds
after `Start` and is preserved by every `Add` whose seqnum is 0 (unset)
or at most the current running counter, by every `NewLines` with a
nonnegative count, and by `Flush`, `ReAddSkipped` and `End`
unconditionally. -/
theorem c7_nlseq_invariant :
    (∀ sp th s, invNL (startF sp th s)) ∧
    (∀ f pc q s t, (q = 0 ∨ q ≤ s.m_seqnum) → invNL s →
      addF f pc q s = some t → invNL t) ∧
    (∀ f c s t, 0 ≤ c → invNL s → newLinesF f c s = some t → invNL t) ∧
    (∀ f s t, invNL s → flushF f s = some t → invNL t) ∧
    (∀ f s t, invNL s → reAddSkippedF f s = some t → invNL t) ∧
    (∀ f s t, invNL s → endF f s = some t → invNL t) := by
  refine ⟨?_, ?_, ?_, ?_, ?_, ?_⟩
  · intro sp th s
    exact ⟨le_refl _, by simp [startF]⟩
  · intro f pc q s t hq hs h
    exact ((invNL_pres f).1 pc q s t hq hs h).1
  · intro f c s t hc hs h
    exact ((invNL_pres f).2.2.2.1 c s t hc hs h).1
  · intro f s t hs h
    exact ((invNL_pres f).2.2.2.2 s t hs h).1
  · intro f s t hs h
    exact ((invNL_pres f).2.1 s t hs h).1
  · intro f s t hs h
    unfold endF at h
    obtain ⟨u, hu, rfl⟩ := Option.map_eq_some'.mp h
    have hu' : invNL u := by
      split_ifs at hu with hemp
      · obtain rfl : s = u := by injection hu
        exact hs
      · exact ((invNL_pres f).2.2.2.2 s u hs hu).1
    exact ⟨hu'.1, by simp [clearBoth]⟩

/-- Witness for the amended C7: a concrete `Add` with an unset seqnum
preserving the invariant. -/
theorem c7_nlseq_invariant_witness :
    ((0 = 0 ∨ (0:Int) ≤ (startF 3 1 initStack).m_seqnum) ∧
     invNL (startF 3 1 initStack) ∧
     addF 9 tokA 0 (startF 3 1 initStack) = some stateA) ∧
    invNL stateA :=
  ⟨⟨Or.inl rfl, by decide, by decide⟩,
   c7_nlseq_invariant.2.1 9 tokA 0 (startF 3 1 initStack) stateA
     (Or.inl rfl) (by decide) (by decide)⟩

/-- C8 counterexample: `Flush` on a state with `Aligned` empty but
`Skipped` nonempty replays the skipped entry into a fresh group, so the
call returns with `max_col = 11 ≠ 0`, contradicting "leaves max_col = 0
regardless of whether Skipped is empty or not". -/
theorem c8_flush_empty_counterexample :
    (flushF 9 ⟨[], [⟨tokA, 0⟩], [], 3, 1, 0, 0, 0, []⟩).map
      (fun t => decide (t.m_max_col = 0)) = some false := by
  decide

/-- C8 (amended): `Flush` on a state with both `Aligned` and `Skipped`
empty performs no applier invocation (the trace is unchanged) and leaves
`max_col = 0`; every other field except `nl_seqnum` (synced to `seqnum`)
is unchanged. -/
theorem c8_flush_empty (f : Nat) (s t : AlignStack)
    (hal : s.m_aligned = []) (hsk : s.m_skipped = [])
    (h : flushF (f+1) s = some t) :
    t.m_max_col = 0 ∧ t.trace = s.trace ∧ t.m_aligned = [] ∧
    t.m_skipped = [] ∧ t.m_nl_seqnum = s.m_seqnum ∧
    t.m_seqnum = s.m_seqnum ∧ t.m_span = s.m_span ∧
    t.m_thresh = s.m_thresh := by
  rw [flushF_succ, if_pos (by simp [hsk])] at h
  obtain rfl : { commitState s with m_nl_seqnum := s.m_seqnum } = t := by
    injection h
  refine ⟨rfl, ?_, rfl, by simp [commitState, applyAll, hsk], rfl, rfl, rfl, rfl⟩
  simp [commitState, applyAll, hal]

/-- Witness for the amended C8: a concrete `Flush` on an idle state. -/
theorem c8_flush_empty_witness :
    (((startF 3 1 initStack).m_aligned = []) ∧
     ((startF 3 1 initStack).m_skipped = []) ∧
     flushF 9 (startF 3 1 initStack) = some (startF 3 1 initStack)) ∧
    ((startF 3 1 initStack).m_max_col = 0 ∧
     (startF 3 1 initStack).trace = (startF 3 1 initStack).trace ∧
     (startF 3 1 initStack).m_aligned = [] ∧
     (startF 3 1 initStack).m_skipped = [] ∧
     (startF 3 1 initStack).m_nl_seqnum = (startF 3 1 initStack).m_seqnum ∧
     (startF 3 1 initStack).m_seqnum = (startF 3 1 initStack).m_seqnum ∧
     (startF 3 1 initStack).m_span = (startF 3 1 initStack).m_span ∧
     (startF 3 1 initStack).m_thresh = (startF 3 1 initStack).m_thresh) :=
  ⟨⟨by decide, by decide, by decide⟩,
   c8_flush_empty 8 (startF 3 1 initStack) (startF 3 1 initStack)
     (by decide) (by decide) (by decide)⟩

/-- The C9 counterexample session: the C3 failing input followed by
`End`. -/
def c9ceOps : List Op := c3ops ++ [Op.finish]

/-- The state the program reaches on the C9 counterexample session. -/
def c9ceT : AlignStack :=
  ⟨[], [], [⟨tok20, 0⟩], 100, 1, 21, 0, 0,
    [Ev.pushA tokA 0, Ev.pushS tok20 0, Ev.pushS tok13 0, Ev.pushS tok25 0,
     Ev.pushA tok12 0, Ev.pushS tok20 0, Ev.pushA tok13 0, Ev.pushS tok20 0,
     Ev.apply tokA 22, Ev.apply tok12 21, Ev.apply tok13 13,
     Ev.pushA tok20 0, Ev.discardA tok20 0]⟩

/-- C9 counterexample: the discard of `Skipped` entries at `End` is not
the only externally visible data loss.  In this session `tok25` is handed
to `Add` (it has a push event), is never passed to the applier, and ends
the session in neither collection with no discard event of any kind: the
shared-scratch truncation dropped it mid-session.  (`tok20` is also lost,
from `Aligned`, via `discardA`.) -/
theorem c9_loss_counterexample :
    runF 12 c9ceOps initStack = some c9ceT ∧
    Ev.pushS tok25 0 ∈ c9ceT.trace ∧
    applyCount c9ceT.trace tok25 = 0 ∧
    discardCount c9ceT.trace tok25 = 0 ∧
    tokCount c9ceT.m_aligned tok25 = 0 ∧
    tokCount c9ceT.m_skipped tok25 = 0 := by
  refine ⟨?_, by decide, by decide, by decide, by decide, by decide⟩
  have h : c9ceOps = c3ops ++ [Op.finish] := rfl
  rw [h, runF_append, c3run]
  decide

/-- C9 (amended): in a session (one `Start`, then `Start`-free calls) in
which the caller hands each token to `Add` at most once (the spec's
one-candidate-per-line contract, phrased as no duplicate `Add` tokens), a
token that `End` discards from `Skipped` (it has a `discardS` event) is
never passed to the column applier at any point of the session: no
`apply` event for it exists anywhere in the session trace.  This discard
is however not the only externally visible data loss — see the
counterexample. -/
theorem c9_skipped_never_applied (f : Nat) (sp th : Int) (ops : List Op)
    (t : AlignStack) (pc : Token) (q c : Int)
    (hops : ∀ op ∈ ops, isStartOp op = false)
    (huniq : (ops.filterMap getAddTok).Nodup)
    (hrun : runF f ops (startF sp th initStack) = some t)
    (hdisc : Ev.discardS pc q ∈ t.trace) :
    Ev.apply pc c ∉ t.trace := by
  intro happ
  have h1 := run_consLe f ops (startF sp th initStack) t pc hops hrun
  rw [totalCount_startInit, addTokCount_eq_count] at h1
  have h2 : (ops.filterMap getAddTok).count pc ≤ 1 :=
    List.nodup_iff_count_le_one.mp huniq pc
  have h3 : 0 < discardCount t.trace pc :=
    List.countP_pos.mpr ⟨_, hdisc, by simp [evDiscardTok]⟩
  have h4 : 0 < applyCount t.trace pc :=
    List.countP_pos.mpr ⟨_, happ, by simp [evApplyTok]⟩
  have h5 : applyCount t.trace pc + discardCount t.trace pc
      ≤ totalCount t pc := by
    unfold totalCount; omega
  omega

/-- The C9 witness session: one near token, two far tokens, then `End`;
`tokF` is revived by the final flush but `tokG` stays skipped and is
discarded. -/
def wC9ops : List Op := [Op.add tokA 0, Op.add tokF 0, Op.add tokG 0, Op.finish]

/-- The final state of the C9 witness session. -/
def wC9t : AlignStack :=
  ⟨[], [], [⟨tokF, 0⟩, ⟨tokG, 0⟩], 3, 1, 51, 0, 0,
    [Ev.pushA tokA 0, Ev.pushS tokF 0, Ev.pushS tokG 0, Ev.apply tokA 10,
     Ev.pushA tokF 0, Ev.pushS tokG 0, Ev.discardA tokF 0,
     Ev.discardS tokG 0]⟩

/-- Witness for C9 at the concrete session: `tokG` is discarded from
`Skipped` at `End` and indeed has no applier event. -/
theorem c9_skipped_never_applied_witness :
    ((∀ op ∈ wC9ops, isStartOp op = false) ∧
     (wC9ops.filterMap getAddTok).Nodup ∧
     runF 9 wC9ops (startF 3 1 initStack) = some wC9t ∧
     Ev.discardS tokG 0 ∈ wC9t.trace) ∧
    Ev.apply tokG 0 ∉ wC9t.trace :=
  ⟨⟨by decide, by decide, by decide, by decide⟩,
   c9_skipped_never_applied 9 3 1 wC9ops wC9t tokG 0 0
     (by decide) (by decide) (by decide) (by decide)⟩

/-- C10 (implicit): when `End` is called with both collections nonempty,
it performs a single internal `Flush` (whose replay may seed a fresh
`Aligned` group from the surviving skipped entries) and then clears both
collections, adding only discard events — no applier invocation — for the
entries of the post-flush state.  In particular a token re-admitted into
`Aligned` by that replay is discarded unapplied (a `discardA` event), so
tokens can be lost at `End` from `Aligned`, not only from `Skipped`. -/
theorem c10_end_discards_aligned (f : Nat) (s t : AlignStack)
    (hal : s.m_aligned ≠ []) (hsk : s.m_skipped ≠ [])
    (h : endF f s = some t) :
    ∃ u, flushF f s = some u ∧ t = clearBoth u ∧
      t.m_aligned = [] ∧ t.m_skipped = [] ∧
      t.trace = u.trace
        ++ u.m_aligned.map (fun ce => Ev.discardA ce.m_pc ce.m_seqnum)
        ++ u.m_skipped.map (fun ce => Ev.discardS ce.m_pc ce.m_seqnum) := by
  unfold endF at h
  rw [if_neg (by simpa [List.isEmpty_iff] using hal)] at h
  obtain ⟨u, hu, rfl⟩ := Option.map_eq_some'.mp h
  exact ⟨u, hu, rfl, rfl, rfl, rfl⟩

/-- The post-flush state of the C10 witness `End`: `tokF` has been
re-admitted into `Aligned`. -/
def wC10u : AlignStack :=
  ⟨[⟨tokF, 0⟩], [], [⟨tokF, 0⟩], 3, 1, 51, 0, 0,
    [Ev.pushA tokA 0, Ev.pushS tokF 0, Ev.apply tokA 10, Ev.pushA tokF 0]⟩

/-- The final state of the C10 witness `End`. -/
def wC10t : AlignStack :=
  ⟨[], [], [⟨tokF, 0⟩], 3, 1, 51, 0, 0,
    [Ev.pushA tokA 0, Ev.pushS tokF 0, Ev.apply tokA 10, Ev.pushA tokF 0,
     Ev.discardA tokF 0]⟩

/-- Witness for C10: `End` on `stateAF` flushes `tokA`, the replay
re-admits `tokF` into `Aligned`, and the final clear discards `tokF`
unapplied (it has a `discardA` event and no `apply` event). -/
theorem c10_end_discards_aligned_witness :
    (stateAF.m_aligned ≠ [] ∧ stateAF.m_skipped ≠ [] ∧
     endF 9 stateAF = some wC10t ∧
     Ev.discardA tokF 0 ∈ wC10t.trace ∧
     (∀ e ∈ wC10t.trace, evApplyTok tokF e = false)) ∧
    (∃ u, flushF 9 stateAF = some u ∧ wC10t = clearBoth u ∧
      wC10t.m_aligned = [] ∧ wC10t.m_skipped = [] ∧
      wC10t.trace = u.trace
        ++ u.m_aligned.map (fun ce => Ev.discardA ce.m_pc ce.m_seqnum)
        ++ u.m_skipped.map (fun ce => Ev.discardS ce.m_pc ce.m_seqnum)) :=
  ⟨⟨by decide, by decide, by decide, by decide, by decide⟩,
   c10_end_discards_aligned 9 stateAF wC10t (by decide) (by decide)
     (by decide)⟩

end AlignStackSpec
